import Mathlib

/-!
Shallow embedding of `node/storage/src/log_store/tx_store.rs` from the
0g-storage-node repository: the transaction store (`TransactionStore`), its
insert (`put_tx`), lookup (`get_tx_by_seq_number`), rollback
(`remove_tx_after`), reverse index (`get_tx_seq_list_by_data_root`),
completion-status reads (`get_tx_status`), and the tail-chunk Merkle rebuild
(`rebuild_last_chunk_merkle`).

Bytes and 256-bit digests are modelled as `Nat`; the two key-value databases
are modelled as functions from keys to optional decoded values (decoding a
value we stored ourselves cannot fail, so SSZ round-trips are implicit).
Rust panics (`assert!`, `.expect`) are modelled by returning `none` from an
`Option`-valued function.
-/

namespace ZgsTxStore

abbrev Byte := Nat
abbrev DataRoot := Nat
abbrev H256 := Nat

/-- Modelled from the spec: `ENTRY_SIZE` is imported from
`log_store/log_manager.rs`, which is not part of the given sources; the spec
only requires a fixed positive entry size ("transactions are measured and
padded in whole entries"), so the upstream constant 256 is used. -/
def ENTRY_SIZE : Nat := 256

/-- Modelled from the spec: `PORA_CHUNK_SIZE` is imported from
`log_store/log_manager.rs`, which is not part of the given sources; the spec
only requires a fixed power-of-two chunk size (`depth log2(PORA_CHUNK_SIZE)+1`),
so the upstream constant 1024 is used. -/
def PORA_CHUNK_SIZE : Nat := 1024

/-- `shared_types::Transaction`, restricted to the fields `tx_store.rs` reads:
sequence number, content root, start entry offset, byte size, inline content
bytes, and the `(depth, digest)` subtree decomposition. -/
@[ext]
structure Transaction where
  seq : Nat
  data_merkle_root : DataRoot
  start_entry_index : Nat
  size : Nat
  data : List Byte
  merkle_nodes : List (Nat × H256)
deriving DecidableEq, Repr

/-- `TxStatus` from `tx_store.rs`. -/
inductive TxStatus where
  | Finalized
  | Pruned
deriving DecidableEq, Repr

/-- `impl TryFrom<u8> for TxStatus`: byte 0 is `Finalized`, byte 1 is
`Pruned`, anything else is a typed decode error. -/
def TxStatus.tryFrom (value : Byte) : Except String TxStatus :=
  match value with
  | 0 => .ok .Finalized
  | 1 => .ok .Pruned
  | _ => .error "invalid value for tx status"

/-- The durable and in-memory state of a `TransactionStore`:
`txRecords` is column `COL_TX` keyed by big-endian seq, `nextTxSeqStored` the
`NEXT_TX_KEY` scalar in `COL_TX`, `dataRootIndex` the column
`COL_TX_DATA_ROOT_INDEX`, `txCompleted` the column `COL_TX_COMPLETED` of the
data database (raw value bytes), and `next_tx_seq` the in-memory `AtomicU64`. -/
@[ext]
structure TransactionStore where
  txRecords : Nat → Option Transaction
  nextTxSeqStored : Nat
  dataRootIndex : DataRoot → Option (List Nat)
  txCompleted : Nat → Option (List Byte)
  next_tx_seq : Nat

/-- The store created over empty databases (`TransactionStore::new` reads
`next_tx_seq = 0` when `NEXT_TX_KEY` is absent). -/
def empty_store : TransactionStore :=
  { txRecords := fun _ => none
    nextTxSeqStored := 0
    dataRootIndex := fun _ => none
    txCompleted := fun _ => none
    next_tx_seq := 0 }

/-- `get_tx_seq_list_by_data_root`: the stored reverse-index list for a root,
or the empty list when the key is absent. -/
def get_tx_seq_list_by_data_root (s : TransactionStore) (data_root : DataRoot) :
    List Nat :=
  (s.dataRootIndex data_root).getD []

/-- The `assert!(old_tx_seq_list.last().map(|last| *last < tx.seq).unwrap_or(true))`
condition in `put_tx`. -/
def list_last_lt (l : List Nat) (n : Nat) : Bool :=
  match l.getLast? with
  | none => true
  | some last => last < n

/-- `put_tx`: idempotent-replay early return when the last recorded seq for
the (caller-supplied) root equals `tx.seq`; otherwise recompute size and root
from inline content when present, assert in-order insertion, and atomically
write the record, the advanced counter, and the extended reverse-index list.
`none` models the `assert!` panic. -/
def put_tx (hash : List Byte → DataRoot) (s : TransactionStore)
    (tx : Transaction) : Option (TransactionStore × List Nat) :=
  let old_tx_seq_list := get_tx_seq_list_by_data_root s tx.data_merkle_root
  if old_tx_seq_list.getLast? = some tx.seq then
    some ({ s with next_tx_seq := tx.seq + 1 }, old_tx_seq_list)
  else
    let padded_data :=
      if tx.data.length % ENTRY_SIZE = 0 then tx.data
      else tx.data ++ List.replicate (ENTRY_SIZE - tx.data.length % ENTRY_SIZE) 0
    let tx := { tx with
      size := if tx.data = [] then tx.size else tx.data.length
      data_merkle_root :=
        if tx.data = [] then tx.data_merkle_root else hash padded_data }
    if list_last_lt old_tx_seq_list tx.seq then
      let new_tx_seq_list := old_tx_seq_list ++ [tx.seq]
      some
        ({ txRecords := fun k => if k = tx.seq then some tx else s.txRecords k
           nextTxSeqStored := tx.seq + 1
           dataRootIndex := fun r =>
             if r = tx.data_merkle_root then some new_tx_seq_list
             else s.dataRootIndex r
           txCompleted := s.txCompleted
           next_tx_seq := tx.seq + 1 }, old_tx_seq_list)
    else none

/-- `get_tx_by_seq_number`: `None` when `seq >= next_tx_seq`, otherwise the
stored record (if any). -/
def get_tx_by_seq_number (s : TransactionStore) (seq : Nat) :
    Option Transaction :=
  if s.next_tx_seq ≤ seq then none else s.txRecords seq

/-- `get_tx_status`: absent key gives `none`; otherwise only the first byte of
the stored value is inspected (`value.first()`), a zero-length value also
giving `none`. -/
def get_tx_status (s : TransactionStore) (tx_seq : Nat) :
    Except String (Option TxStatus) :=
  match s.txCompleted tx_seq with
  | none => .ok none
  | some value =>
    match value.head? with
    | some v => (TxStatus.tryFrom v).map some
    | none => .ok none

/-! ### Rollback (`remove_tx_after`)

The `HashMap<DataRoot, Vec<u64>>` named `modified_merkle_root_map` is modelled
as an association list; the final per-root writes commute (distinct keys), so
iteration order is immaterial to the resulting state. -/

/-- Lookup in an association list (the model of `HashMap::get` /
`Entry::Occupied`). -/
def assocGet (m : List (DataRoot × List Nat)) (r : DataRoot) :
    Option (List Nat) :=
  match m with
  | [] => none
  | (k, v) :: rest => if k = r then some v else assocGet rest r

/-- Update-or-append in an association list (the model of writing through a
`HashMap` entry). -/
def assocSet (m : List (DataRoot × List Nat)) (r : DataRoot) (v : List Nat) :
    List (DataRoot × List Nat) :=
  match m with
  | [] => [(r, v)]
  | (k, w) :: rest =>
    if k = r then (k, v) :: rest else (k, w) :: assocSet rest r v

/-- The loop state of `remove_tx_after`: the in-memory root map, the removed
transactions, the roots that were fetched from storage (one entry per
`Entry::Vacant` hit, recorded to count storage lookups), and the sequence keys
staged for deletion in the two write batches. -/
structure RollbackAcc where
  map : List (DataRoot × List Nat)
  removed : List Transaction
  lookedUp : List DataRoot
  txDeletes : List Nat
deriving Repr

/-- One iteration of the `for seq in min_seq..max_seq` loop body of
`remove_tx_after`, given that `get_tx_by_seq_number` returned `some tx`:
stage both deletions, take the root's filtered list from the in-memory map if
present and from storage otherwise, and retain only entries `< seq`. -/
def rollback_step (s : TransactionStore) (acc : RollbackAcc) (seq : Nat)
    (tx : Transaction) : RollbackAcc :=
  let fetched :=
    match assocGet acc.map tx.data_merkle_root with
    | some l => (l, acc.lookedUp)
    | none =>
      (get_tx_seq_list_by_data_root s tx.data_merkle_root,
        acc.lookedUp ++ [tx.data_merkle_root])
  { map := assocSet acc.map tx.data_merkle_root
      (fetched.1.filter (fun e => decide (e < seq)))
    removed := acc.removed ++ [tx]
    lookedUp := fetched.2
    txDeletes := acc.txDeletes ++ [seq] }

/-- The scan loop of `remove_tx_after`: a missing record (`let Some(tx) ... else`)
breaks out of the loop. -/
def remove_tx_after_loop (s : TransactionStore) :
    List Nat → RollbackAcc → RollbackAcc
  | [], acc => acc
  | seq :: rest, acc =>
    match get_tx_by_seq_number s seq with
    | none => acc
    | some tx => remove_tx_after_loop s rest (rollback_step s acc seq tx)

/-- The empty accumulator at loop entry. -/
def initAcc : RollbackAcc := ⟨[], [], [], []⟩

/-- The accumulator after running the whole scan loop of
`remove_tx_after s min_seq` over `[min_seq, next_tx_seq)`. -/
def rollbackAcc (s : TransactionStore) (min_seq : Nat) : RollbackAcc :=
  remove_tx_after_loop s (List.range' min_seq (s.next_tx_seq - min_seq)) initAcc

/-- `remove_tx_after`: run the scan loop over `[min_seq, next_tx_seq)`, then
apply both staged write batches: delete the scanned records and completion
entries, delete or rewrite each touched reverse-index entry, and reset both
counters to `min_seq`. -/
def remove_tx_after (s : TransactionStore) (min_seq : Nat) :
    TransactionStore × List Transaction :=
  let acc := rollbackAcc s min_seq
  ({ txRecords := fun k => if k ∈ acc.txDeletes then none else s.txRecords k
     nextTxSeqStored := min_seq
     dataRootIndex := fun r =>
       match assocGet acc.map r with
       | some l => if l = [] then none else some l
       | none => s.dataRootIndex r
     txCompleted := fun k =>
       if k ∈ acc.txDeletes then none else s.txCompleted k
     next_tx_seq := min_seq }, acc.removed)

/-! ### The tail-chunk Merkle rebuild (`rebuild_last_chunk_merkle`)

The `AppendMerkleTree` collaborator lives in the external `append_merkle`
crate; following the spec's interface description it is modelled as a leaf
counter plus a trace of the digest-level operations performed on it. -/

/-- Modelled from the spec: an operation performed on the append-only Merkle
tree collaborator (`append_list`, `append_subtree_list`, `commit`). -/
inductive TreeOp where
  | appendLeaves (leaves : List H256)
  | appendSubtrees (subtrees : List (Nat × H256))
  | commitVer (v : Nat)
deriving DecidableEq, Repr

/-- Modelled from the spec: the append-only Merkle tree collaborator
(`AppendMerkleTree`), reduced to what `rebuild_last_chunk_merkle` observes —
its fixed depth, its initial leaves, its leaf count, and the trace of
operations fed to it. A subtree of depth `d` covers `2 ^ (d - 1)` entries. -/
structure MTree where
  depth : Nat
  initialLeaves : List H256
  leafCount : Nat
  ops : List TreeOp
deriving DecidableEq, Repr

/-- `AppendMerkleTree::new_with_depth(leaves, depth, None)`. -/
def new_with_depth (leaves : List H256) (depth : Nat) : MTree :=
  { depth := depth, initialLeaves := leaves, leafCount := leaves.length
    ops := [] }

/-- `merkle.leaves()`. -/
def MTree.leaves (t : MTree) : Nat := t.leafCount

/-- `merkle.append_list(leaf_list)`. -/
def append_list (t : MTree) (l : List H256) : MTree :=
  { t with leafCount := t.leafCount + l.length, ops := t.ops ++ [.appendLeaves l] }

/-- `merkle.append_subtree_list(subtree_list)`: each `(depth, digest)` pair
contributes `2 ^ (depth - 1)` leaves. -/
def append_subtree_list (t : MTree) (l : List (Nat × H256)) : MTree :=
  { t with
    leafCount := t.leafCount + (l.map (fun p => 2 ^ (p.1 - 1))).sum
    ops := t.ops ++ [.appendSubtrees l] }

/-- `merkle.commit(Some(tx_seq))`. -/
def MTree.commitVersion (t : MTree) (v : Nat) : MTree :=
  { t with ops := t.ops ++ [.commitVer v] }

/-- Modelled from the spec: `LogManager::padding_raw(pad_len)` (from
`log_manager.rs`, not in the given sources) produces `pad_len` entries of zero
bytes. -/
def padding_raw (pad_len : Nat) : List Byte :=
  List.replicate (pad_len * ENTRY_SIZE) 0

/-- Modelled from the spec: the digest of one entry-sized block of raw bytes;
a zero-filled entry hashes to the tree's reserved zero value (so padding
appends "zero-valued padding leaves"). -/
def entry_leaf_hash (entry : List Byte) : H256 :=
  if entry.all (fun b => decide (b = 0)) then 0
  else entry.foldl (fun a b => a * 257 + b + 1) 1

/-- Modelled from the spec: `data_to_merkle_leaves` (from `log_manager.rs`,
not in the given sources) splits raw bytes into entry-sized blocks and hashes
each block into one leaf digest. -/
def data_to_merkle_leaves (data : List Byte) : List H256 :=
  (List.range (data.length / ENTRY_SIZE)).map
    (fun i => entry_leaf_hash ((data.drop (i * ENTRY_SIZE)).take ENTRY_SIZE))

/-- The inner `for (i, (depth, _)) in tx.merkle_nodes.iter().enumerate()` walk
of the `Ordering::Less` arm: accumulate `start_index += 1 << (depth - 1)` and
return `Some(i + 1)` as soon as the running offset equals the chunk start. -/
def find_first_index (chunk_start : Nat) :
    List (Nat × H256) → Nat → Nat → Option Nat
  | [], _, _ => none
  | (depth, _) :: rest, start_index, i =>
    let start_index := start_index + 2 ^ (depth - 1)
    if start_index = chunk_start then some (i + 1)
    else find_first_index chunk_start rest start_index (i + 1)

/-- The backward scan loop of `rebuild_last_chunk_merkle`, accumulating
`tx_list` in scan order (descending seq). `none` models a panic: either the
`.expect("tx not removed")` on a missing record or the
`assert!(tx_list.is_empty())` in the empty-suffix case. -/
def rebuild_scan (s : TransactionStore) (last_chunk_start_index : Nat) :
    Nat → List (Nat × List (Nat × H256)) →
    Option (List (Nat × List (Nat × H256)))
  | tx_seq, tx_list =>
    match get_tx_by_seq_number s tx_seq with
    | none => none
    | some tx =>
      if last_chunk_start_index < tx.start_entry_index then
        -- Ordering::Greater
        let tx_list := tx_list ++ [(tx_seq, tx.merkle_nodes)]
        if last_chunk_start_index + PORA_CHUNK_SIZE ≤ tx.start_entry_index then
          some tx_list
        else
          match tx_seq with
          | 0 => some tx_list
          | n + 1 => rebuild_scan s last_chunk_start_index n tx_list
      else if tx.start_entry_index = last_chunk_start_index then
        -- Ordering::Equal
        some (tx_list ++ [(tx_seq, tx.merkle_nodes)])
      else
        -- Ordering::Less
        match find_first_index last_chunk_start_index tx.merkle_nodes
          tx.start_entry_index 0 with
        | some first_index =>
          if first_index ≠ tx.merkle_nodes.length then
            some (tx_list ++ [(tx_seq, tx.merkle_nodes.drop first_index)])
          else if tx_list = [] then some tx_list
          else none
        | none => some tx_list

/-- Modelled from the spec: `merkle_light::merkle::log2_pow2` (external crate)
computes the base-2 logarithm of a power of two; a structural fuel-based
recursion equivalent to `Nat.log2` on positive inputs. -/
def log2_aux : Nat → Nat → Nat
  | 0, _ => 0
  | fuel + 1, n => if n ≤ 1 then 0 else log2_aux fuel (n / 2) + 1

/-- Modelled from the spec: `log2_pow2 n` is `log2 n` for a power of two. -/
def log2_pow2 (n : Nat) : Nat := log2_aux n n

/-- The initial working tree of the replay phase: a single zero leaf at depth
1 for the first chunk, otherwise empty at depth `log2_pow2(PORA_CHUNK_SIZE) + 1`. -/
def rebuild_init (last_chunk_start_index : Nat) : MTree :=
  if last_chunk_start_index = 0 then new_with_depth [0] 1
  else new_with_depth [] (log2_pow2 PORA_CHUNK_SIZE + 1)

/-- One iteration of the replay loop: align with zero padding when the leaf
count is not a multiple of the first subtree's span, then append the subtree
digests and commit as version `tx_seq`. `none` models the `subtree_list[0]`
panic on an empty slice. -/
def replay_step (merkle : MTree) (entry : Nat × List (Nat × H256)) :
    Option MTree :=
  match entry.2 with
  | [] => none
  | (d0, h0) :: rest =>
    let subtree_list := (d0, h0) :: rest
    let first_subtree := 2 ^ (d0 - 1)
    let merkle :=
      if merkle.leaves % first_subtree ≠ 0 then
        let pad_len :=
          min first_subtree PORA_CHUNK_SIZE - merkle.leaves % first_subtree
        append_list merkle (data_to_merkle_leaves (padding_raw pad_len))
      else merkle
    some ((append_subtree_list merkle subtree_list).commitVersion entry.1)

/-- The replay loop over the collected list (already reversed into ascending
seq order). -/
def replay_fold : List (Nat × List (Nat × H256)) → MTree → Option MTree
  | [], m => some m
  | e :: rest, m =>
    match replay_step m e with
    | none => none
    | some m' => replay_fold rest m'

/-- `rebuild_last_chunk_merkle`: backward scan from `tx_seq`, then forward
replay of the collected subtree slices into a fresh tree. -/
def rebuild_last_chunk_merkle (s : TransactionStore) (pora_chunk_index : Nat)
    (tx_seq : Nat) : Option MTree :=
  let last_chunk_start_index := pora_chunk_index * PORA_CHUNK_SIZE
  match rebuild_scan s last_chunk_start_index tx_seq [] with
  | none => none
  | some tx_list =>
    replay_fold tx_list.reverse (rebuild_init last_chunk_start_index)

/-! ### Derived notions used by the round-trip claim -/

/-- Inserting a list of transactions in order with `put_tx` (as the log-sync
caller does); `none` if any insertion hits the in-order assertion. -/
def insert_all (hash : List Byte → DataRoot) :
    TransactionStore → List Transaction → Option TransactionStore
  | s, [] => some s
  | s, tx :: rest =>
    match put_tx hash s tx with
    | none => none
    | some (s', _) => insert_all hash s' rest

/-- The sorted list of positions of `txs` whose transaction has content root
`r`. -/
def seqListOf (txs : List Transaction) (r : DataRoot) : List Nat :=
  (List.range txs.length).filter
    (fun k => decide (txs[k]?.map Transaction.data_merkle_root = some r))

/-- The canonical store holding exactly the transactions of `txs`, with
transaction `txs[k]` recorded at sequence number `k`. -/
def stateOf (txs : List Transaction) : TransactionStore :=
  { txRecords := fun k => txs[k]?
    nextTxSeqStored := txs.length
    dataRootIndex := fun r =>
      if seqListOf txs r = [] then none else some (seqListOf txs r)
    txCompleted := fun _ => none
    next_tx_seq := txs.length }

/-- A transaction is normalized when its size and root already agree with its
inline content (vacuously so when it carries no inline content): exactly the
shape in which `put_tx` stores records. -/
def Normalized (hash : List Byte → DataRoot) (tx : Transaction) : Prop :=
  tx.data = [] ∨
    (tx.size = tx.data.length ∧
      tx.data_merkle_root =
        hash (tx.data ++
          List.replicate ((ENTRY_SIZE - tx.data.length % ENTRY_SIZE) % ENTRY_SIZE) 0))

/-! ### Concrete inputs used by witnesses and counterexamples -/

/-- A concrete content-hash instance for witnesses (the development is
parametric in the hash). -/
def wHash : List Byte → DataRoot := fun l => 1000 + l.length

/-- Witness transaction for the replay claim: seq 0, root 7, no inline data. -/
def w4tx : Transaction := ⟨0, 7, 0, 16, [], [(5, 99)]⟩

/-- Witness store whose reverse index already ends in `(seq 0, root 7)`. -/
def w4s : TransactionStore :=
  { txRecords := fun k => if k = 0 then some w4tx else none
    nextTxSeqStored := 1
    dataRootIndex := fun r => if r = 7 then some [0] else none
    txCompleted := fun _ => none
    next_tx_seq := 1 }

/-- Witness transaction with inline content and a bogus caller-supplied root. -/
def w5tx : Transaction := ⟨0, 42, 0, 0, [1, 2, 3], []⟩

/-- Witness completion-status column: statuses with trailing bytes, an empty
value, and an invalid first byte. -/
def w10s : TransactionStore :=
  { txRecords := fun _ => none
    nextTxSeqStored := 0
    dataRootIndex := fun _ => none
    txCompleted := fun k =>
      if k = 0 then some [0, 9] else if k = 1 then some [1] else
      if k = 2 then some [] else if k = 3 then some [5] else none
    next_tx_seq := 0 }

/-- Transaction starting before the chunk-1 boundary (entry 1000 < 1024)
whose single depth-1 subtree ends at entry 1001, so the running offset never
lands on the boundary: the padding case of the backward scan. -/
def c1tx0 : Transaction := ⟨0, 11, 1000, 0, [], [(1, 5)]⟩

/-- Transaction inside chunk 1 (start 1030), scanned before `c1tx0`. -/
def c1tx1 : Transaction := ⟨1, 12, 1030, 0, [], [(1, 6)]⟩

/-- Store on which the backward scan hits the padding case with a non-empty
accumulator. -/
def c1s : TransactionStore :=
  { txRecords := fun k =>
      if k = 0 then some c1tx0 else if k = 1 then some c1tx1 else none
    nextTxSeqStored := 2
    dataRootIndex := fun _ => none
    txCompleted := fun _ => none
    next_tx_seq := 2 }

/-- Transaction whose last subtree ends exactly at the chunk-1 boundary
(1020 + 2^2 = 1024): the empty-suffix case that carries the
`assert!(tx_list.is_empty())`. -/
def c1btx : Transaction := ⟨0, 13, 1020, 0, [], [(3, 9)]⟩

/-- Store holding only `c1btx`. -/
def c1bs : TransactionStore :=
  { txRecords := fun k => if k = 0 then some c1btx else none
    nextTxSeqStored := 1
    dataRootIndex := fun _ => none
    txCompleted := fun _ => none
    next_tx_seq := 1 }

/-- Witness transactions sharing root 61 for the reverse-index rollback
claim. -/
def w6t0 : Transaction := ⟨0, 61, 0, 0, [], []⟩

/-- Second witness transaction with root 61. -/
def w6t1 : Transaction := ⟨1, 61, 16, 0, [], []⟩

/-- Witness store for the reverse-index rollback claim: two records sharing
root 61, reverse index `61 ↦ [0, 1]`. -/
def w6s : TransactionStore :=
  { txRecords := fun k =>
      if k = 0 then some w6t0 else if k = 1 then some w6t1 else none
    nextTxSeqStored := 2
    dataRootIndex := fun r => if r = 61 then some [0, 1] else none
    txCompleted := fun _ => none
    next_tx_seq := 2 }

/-- Round-trip counterexample transaction at seq 0. -/
def c7t0 : Transaction := ⟨0, 71, 0, 0, [], []⟩

/-- Round-trip counterexample transaction at seq 2: strictly increasing but
not consecutive. -/
def c7t2 : Transaction := ⟨2, 72, 32, 0, [], []⟩

/-- The store built by inserting the two gapped counterexample transactions. -/
def c7s : TransactionStore :=
  (insert_all wHash empty_store [c7t0, c7t2]).getD empty_store

/-- Round-trip witness transactions with consecutive seqs 0 and 1. -/
def w7t0 : Transaction := ⟨0, 81, 0, 0, [], []⟩

/-- Second round-trip witness transaction. -/
def w7t1 : Transaction := ⟨1, 82, 16, 0, [], []⟩

/-- The store built by inserting the two consecutive witness transactions. -/
def w7s : TransactionStore :=
  (insert_all wHash empty_store [w7t0, w7t1]).getD empty_store

/-- Witness transactions for the rollback claims. -/
def w2t0 : Transaction := ⟨0, 21, 0, 0, [], []⟩

/-- Witness transaction stored at seq 2 behind a gap. -/
def w2t2 : Transaction := ⟨2, 22, 64, 0, [], []⟩

/-- Witness store with a missing record at seq 1 (records at 0 and 2,
counter 3). -/
def w2s : TransactionStore :=
  { txRecords := fun k =>
      if k = 0 then some w2t0 else if k = 2 then some w2t2 else none
    nextTxSeqStored := 3
    dataRootIndex := fun r =>
      if r = 21 then some [0] else if r = 22 then some [2] else none
    txCompleted := fun _ => none
    next_tx_seq := 3 }

/-- Witness transactions for the rollback frame claim. -/
def w3t0 : Transaction := ⟨0, 31, 0, 0, [], []⟩

/-- Second witness transaction for the rollback frame claim. -/
def w3t1 : Transaction := ⟨1, 31, 16, 0, [], []⟩

/-- Witness store with contiguous records at seqs 0 and 1 sharing root 31. -/
def w3s : TransactionStore :=
  { txRecords := fun k =>
      if k = 0 then some w3t0 else if k = 1 then some w3t1 else none
    nextTxSeqStored := 2
    dataRootIndex := fun r => if r = 31 then some [0, 1] else none
    txCompleted := fun _ => none
    next_tx_seq := 2 }

/-! ## Helper lemmas -/

theorem le_getLast_of_pairwise {l : List Nat} {x last : Nat}
    (h : List.Pairwise (· < ·) l) (hx : x ∈ l) (hl : l.getLast? = some last) :
    x ≤ last := by
  induction l with
  | nil => cases hx
  | cons a t ih =>
    cases t with
    | nil =>
      have hx' : x = a := by simpa using hx
      have hl' : a = last := by simpa using hl
      exact le_of_eq (hx'.trans hl')
    | cons b t' =>
      rw [List.getLast?_cons_cons] at hl
      rcases List.mem_cons.mp hx with rfl | hx'
      · have hmem : last ∈ b :: t' :=
          List.mem_of_mem_getLast? (by simpa using hl)
        have := (List.pairwise_cons.mp h).1 last hmem
        omega
      · exact ih (List.pairwise_cons.mp h).2 hx' hl

theorem list_last_lt_eq_true_iff {l : List Nat} {n : Nat} :
    list_last_lt l n = true ↔ ∀ last, l.getLast? = some last → last < n := by
  unfold list_last_lt
  cases h : l.getLast? with
  | none => simp
  | some last => simp [h]

/-! ## C10: completion-status decoding -/

/-- C10: `get_tx_status(seq)` inspects only the first byte of the stored
status value: absence of the key and a stored zero-length value both yield
absent (pending) rather than an error; a first byte of 0 yields `Finalized`
and 1 yields `Pruned` regardless of any trailing bytes, which are ignored;
any other first byte yields a typed decode error. -/
theorem get_tx_status_first_byte (s : TransactionStore) (seq : Nat) :
    (s.txCompleted seq = none → get_tx_status s seq = .ok none) ∧
    (s.txCompleted seq = some [] → get_tx_status s seq = .ok none) ∧
    (∀ rest, s.txCompleted seq = some (0 :: rest) →
      get_tx_status s seq = .ok (some .Finalized)) ∧
    (∀ rest, s.txCompleted seq = some (1 :: rest) →
      get_tx_status s seq = .ok (some .Pruned)) ∧
    (∀ v rest, 2 ≤ v → s.txCompleted seq = some (v :: rest) →
      get_tx_status s seq = .error "invalid value for tx status") := by
  refine ⟨fun h => ?_, fun h => ?_, fun rest h => ?_, fun rest h => ?_,
    fun v rest hv h => ?_⟩ <;> unfold get_tx_status <;> rw [h]
  · rfl
  · rfl
  · rfl
  · match v, hv with
    | v + 2, _ => rfl

/-- Witness for C10 on a concrete completion column: statuses with trailing
bytes decode from their first byte, empty and absent values are pending, an
unknown first byte is a decode error. -/
theorem get_tx_status_first_byte_witness :
    get_tx_status w10s 0 = .ok (some .Finalized) ∧
    get_tx_status w10s 1 = .ok (some .Pruned) ∧
    get_tx_status w10s 2 = .ok none ∧
    get_tx_status w10s 3 = .error "invalid value for tx status" ∧
    get_tx_status w10s 4 = .ok none :=
  ⟨(get_tx_status_first_byte w10s 0).2.2.1 [9] rfl,
    (get_tx_status_first_byte w10s 1).2.2.2.1 [] rfl,
    (get_tx_status_first_byte w10s 2).2.1 rfl,
    (get_tx_status_first_byte w10s 3).2.2.2.2 5 [] (by decide) rfl,
    (get_tx_status_first_byte w10s 4).1 rfl⟩

/-! ## C4: idempotent replay of the last `(seq, root)` pair -/

/-- C4: when the reverse-index list for `tx.data_merkle_root` is non-empty
and its last element equals `tx.seq`, `put_tx` is an idempotent replay: the
stored transaction records and the reverse index are untouched, only the
in-memory counter advances to `tx.seq + 1`, and the existing list for that
root is returned. -/
theorem put_tx_idempotent_replay (hash : List Byte → DataRoot)
    (s : TransactionStore) (tx : Transaction)
    (h : (get_tx_seq_list_by_data_root s tx.data_merkle_root).getLast? =
      some tx.seq) :
    put_tx hash s tx =
      some ({ s with next_tx_seq := tx.seq + 1 },
        get_tx_seq_list_by_data_root s tx.data_merkle_root) := by
  unfold put_tx
  rw [if_pos h]

/-- Witness for C4: replaying `(seq 0, root 7)` on a store whose index list
for root 7 is exactly `[0]` rewrites nothing and returns `[0]`. -/
theorem put_tx_idempotent_replay_witness :
    put_tx wHash w4s w4tx = some ({ w4s with next_tx_seq := 1 }, [0]) :=
  put_tx_idempotent_replay wHash w4s w4tx rfl

/-! ## C5: inline content overrides size and root -/

/-- C5: a non-replay `put_tx` of a transaction with non-empty inline content
stores a record whose size is the unpadded content length and whose root is
recomputed by hashing the content zero-padded to a whole multiple of
`ENTRY_SIZE`, regardless of the caller-supplied root. -/
theorem put_tx_inline_content (hash : List Byte → DataRoot)
    (s : TransactionStore) (tx : Transaction) (s' : TransactionStore)
    (ret : List Nat) (hdata : tx.data ≠ [])
    (hnorepl : (get_tx_seq_list_by_data_root s tx.data_merkle_root).getLast? ≠
      some tx.seq)
    (hput : put_tx hash s tx = some (s', ret)) :
    s'.txRecords tx.seq =
      some { tx with
        size := tx.data.length
        data_merkle_root :=
          hash (tx.data ++
            List.replicate
              ((ENTRY_SIZE - tx.data.length % ENTRY_SIZE) % ENTRY_SIZE) 0) } := by
  have hE : (ENTRY_SIZE : Nat) = 256 := rfl
  have hpad : (if tx.data.length % ENTRY_SIZE = 0 then tx.data
      else tx.data ++ List.replicate (ENTRY_SIZE - tx.data.length % ENTRY_SIZE) 0) =
      tx.data ++ List.replicate
        ((ENTRY_SIZE - tx.data.length % ENTRY_SIZE) % ENTRY_SIZE) 0 := by
    by_cases hextra : tx.data.length % ENTRY_SIZE = 0
    · rw [if_pos hextra, hextra]
      simp
    · rw [if_neg hextra]
      have h1 : tx.data.length % ENTRY_SIZE < ENTRY_SIZE :=
        Nat.mod_lt _ (by omega)
      have h2 : ENTRY_SIZE - tx.data.length % ENTRY_SIZE < ENTRY_SIZE := by
        omega
      rw [Nat.mod_eq_of_lt h2]
  unfold put_tx at hput
  rw [if_neg hnorepl] at hput
  dsimp only at hput
  by_cases hlt : list_last_lt (get_tx_seq_list_by_data_root s tx.data_merkle_root)
      tx.seq = true
  · rw [if_pos hlt] at hput
    simp only [Option.some.injEq, Prod.mk.injEq] at hput
    obtain ⟨h1, _⟩ := hput
    subst h1
    dsimp only
    rw [if_pos rfl, if_neg hdata, if_neg hdata, hpad]
  · rw [if_neg hlt] at hput
    cases hput

/-- Witness for C5: inserting content `[1, 2, 3]` under the bogus caller root
42 stores size 3 and the hash of the content padded with 253 zero bytes. -/
theorem put_tx_inline_content_witness :
    ((put_tx wHash empty_store w5tx).getD (empty_store, [])).1.txRecords 0 =
      some { w5tx with
        size := 3
        data_merkle_root := wHash ([1, 2, 3] ++ List.replicate 253 0) } := by
  exact put_tx_inline_content wHash empty_store w5tx
    ((put_tx wHash empty_store w5tx).getD (empty_store, [])).1
    ((put_tx wHash empty_store w5tx).getD (empty_store, [])).2
    (by decide) (by decide) rfl

/-! ## C9: the returned list contains `tx.seq` exactly on replay -/

/-- C9: for a sorted reverse-index list, the list returned by a successful
`put_tx` is always the pre-state list for the caller-supplied root, and it
contains `tx.seq` exactly when the call was an idempotent replay (its last
element already equals `tx.seq`); on a genuine insertion it does not contain
`tx.seq`. -/
theorem put_tx_return_contains_seq_iff_replay (hash : List Byte → DataRoot)
    (s : TransactionStore) (tx : Transaction) (s' : TransactionStore)
    (ret : List Nat)
    (hsorted : List.Pairwise (· < ·)
      (get_tx_seq_list_by_data_root s tx.data_merkle_root))
    (hput : put_tx hash s tx = some (s', ret)) :
    ret = get_tx_seq_list_by_data_root s tx.data_merkle_root ∧
    (tx.seq ∈ ret ↔
      (get_tx_seq_list_by_data_root s tx.data_merkle_root).getLast? =
        some tx.seq) := by
  unfold put_tx at hput
  by_cases hrepl : (get_tx_seq_list_by_data_root s tx.data_merkle_root).getLast? =
      some tx.seq
  · rw [if_pos hrepl] at hput
    simp only [Option.some.injEq, Prod.mk.injEq] at hput
    refine ⟨hput.2.symm, ?_⟩
    rw [hput.2.symm] at *
    exact iff_of_true (List.mem_of_mem_getLast? (by simpa using hrepl)) hrepl
  · rw [if_neg hrepl] at hput
    dsimp only at hput
    by_cases hlt : list_last_lt (get_tx_seq_list_by_data_root s tx.data_merkle_root)
        tx.seq = true
    · rw [if_pos hlt] at hput
      simp only [Option.some.injEq, Prod.mk.injEq] at hput
      refine ⟨hput.2.symm, iff_of_false ?_ hrepl⟩
      rw [hput.2.symm]
      intro hmem
      cases hl : (get_tx_seq_list_by_data_root s tx.data_merkle_root).getLast? with
      | none =>
        rw [List.getLast?_eq_none_iff] at hl
        rw [hl] at hmem
        cases hmem
      | some last =>
        have h1 := list_last_lt_eq_true_iff.mp hlt last hl
        have h2 := le_getLast_of_pairwise hsorted hmem hl
        omega
    · rw [if_neg hlt] at hput
      cases hput

/-- Witness for C9: a genuine insertion into the empty store returns the
empty pre-state list, which does not contain the new seq. -/
theorem put_tx_return_contains_seq_iff_replay_witness :
    ((put_tx wHash empty_store w5tx).getD (empty_store, [])).2 =
      get_tx_seq_list_by_data_root empty_store 42 ∧
    (0 ∈ ((put_tx wHash empty_store w5tx).getD (empty_store, [])).2 ↔
      (get_tx_seq_list_by_data_root empty_store 42).getLast? = some 0) := by
  have h := put_tx_return_contains_seq_iff_replay wHash empty_store w5tx
    ((put_tx wHash empty_store w5tx).getD (empty_store, [])).1
    ((put_tx wHash empty_store w5tx).getD (empty_store, [])).2
    (by simp [get_tx_seq_list_by_data_root, empty_store]) rfl
  exact h

/-! ## The rollback scan loop -/

theorem remove_tx_after_loop_removed_deletes (s : TransactionStore) :
    ∀ (l : List Nat) (acc : RollbackAcc),
      (remove_tx_after_loop s l acc).removed =
        acc.removed ++
          (l.takeWhile (fun j => (get_tx_by_seq_number s j).isSome)).filterMap
            (fun j => get_tx_by_seq_number s j) ∧
      (remove_tx_after_loop s l acc).txDeletes =
        acc.txDeletes ++
          l.takeWhile (fun j => (get_tx_by_seq_number s j).isSome) := by
  intro l
  induction l with
  | nil => intro acc; simp [remove_tx_after_loop]
  | cons j rest ih =>
    intro acc
    cases h : get_tx_by_seq_number s j with
    | none =>
      rw [remove_tx_after_loop, h]
      rw [List.takeWhile_cons_of_neg (by simp [h])]
      simp
    | some tx =>
      rw [remove_tx_after_loop, h]
      rw [List.takeWhile_cons_of_pos (by simp [h])]
      rw [List.filterMap_cons_some h]
      have := ih (rollback_step s acc j tx)
      rw [this.1, this.2]
      unfold rollback_step
      constructor <;> simp

theorem takeWhile_range'_eq_of {p : Nat → Bool} {a k n : Nat} (h1 : a ≤ k)
    (h2 : k < a + n) (h3 : ∀ j, a ≤ j → j < k → p j = true)
    (h4 : p k = false) :
    (List.range' a n).takeWhile p = List.range' a (k - a) := by
  induction n generalizing a with
  | zero => omega
  | succ n ih =>
    rw [List.range'_succ]
    by_cases ha : a = k
    · subst ha
      rw [List.takeWhile_cons_of_neg (by simp [h4])]
      rw [Nat.sub_self]
      rfl
    · have halt : a < k := by omega
      rw [List.takeWhile_cons_of_pos (h3 a le_rfl halt)]
      rw [ih (by omega) (by omega) (fun j hj1 hj2 => h3 j (by omega) hj2)]
      rw [show k - a = (k - (a + 1)) + 1 by omega, List.range'_succ]

theorem takeWhile_eq_self_of_all {p : Nat → Bool} {l : List Nat}
    (h : ∀ j ∈ l, p j = true) : l.takeWhile p = l :=
  List.takeWhile_eq_self_iff.mpr h

theorem get_tx_by_seq_number_eq_some {s : TransactionStore} {j : Nat}
    {t : Transaction} (h : get_tx_by_seq_number s j = some t) :
    s.txRecords j = some t ∧ j < s.next_tx_seq := by
  unfold get_tx_by_seq_number at h
  by_cases hj : s.next_tx_seq ≤ j
  · rw [if_pos hj] at h
    cases h
  · rw [if_neg hj] at h
    exact ⟨h, by omega⟩

/-! ## C2: a missing record stops the rollback scan -/

/-- C2: if some `seq` in `[min_seq, next_tx_seq)` has no stored record while
all earlier ones do, the rollback scan stops at that `seq`: exactly the
records of `[min_seq, seq)` are collected and removed, and no record at or
beyond the missing `seq` is deleted. -/
theorem remove_tx_after_stops_at_missing (s : TransactionStore)
    (min_seq k : Nat) (hk1 : min_seq ≤ k) (hk2 : k < s.next_tx_seq)
    (hmiss : s.txRecords k = none)
    (hpresent : ∀ j, min_seq ≤ j → j < k → (s.txRecords j).isSome) :
    (remove_tx_after s min_seq).2 =
      (List.range' min_seq (k - min_seq)).filterMap
        (fun j => get_tx_by_seq_number s j) ∧
    ∀ j, k ≤ j →
      (remove_tx_after s min_seq).1.txRecords j = s.txRecords j := by
  have htw : (List.range' min_seq (s.next_tx_seq - min_seq)).takeWhile
      (fun j => (get_tx_by_seq_number s j).isSome) =
      List.range' min_seq (k - min_seq) := by
    refine takeWhile_range'_eq_of hk1 (by omega) (fun j hj1 hj2 => ?_) ?_
    · unfold get_tx_by_seq_number
      rw [if_neg (by omega)]
      exact hpresent j hj1 hj2
    · unfold get_tx_by_seq_number
      rw [if_neg (by omega), hmiss]
      rfl
  have hloop := remove_tx_after_loop_removed_deletes s
    (List.range' min_seq (s.next_tx_seq - min_seq)) initAcc
  constructor
  · show (remove_tx_after_loop s
        (List.range' min_seq (s.next_tx_seq - min_seq)) initAcc).removed = _
    rw [hloop.1, htw]
    rfl
  · intro j hj
    show (if j ∈ (remove_tx_after_loop s
        (List.range' min_seq (s.next_tx_seq - min_seq)) initAcc).txDeletes
      then none else s.txRecords j) = s.txRecords j
    rw [if_neg]
    rw [hloop.2, htw]
    intro hmem
    rw [show initAcc.txDeletes = [] from rfl, List.nil_append] at hmem
    have := List.mem_range'_1.mp hmem
    omega

/-- Witness for C2: on a store with records at seqs 0 and 2 but none at 1,
`remove_tx_after 0` removes only the record at 0 and leaves the record at 2
stored. -/
theorem remove_tx_after_stops_at_missing_witness :
    (remove_tx_after w2s 0).2 = [w2t0] ∧
    (remove_tx_after w2s 0).1.txRecords 2 = some w2t2 := by
  have h := remove_tx_after_stops_at_missing w2s 0 1 (by decide) (by decide)
    rfl (fun j h1 h2 => by
      have hj : j = 0 := by omega
      subst hj
      decide)
  exact ⟨h.1.trans (by decide), (h.2 2 (by decide)).trans (by decide)⟩

/-! ## C3: rollback frame conditions -/

theorem map_seq_filterMap_get {s : TransactionStore}
    (hwf : ∀ k t, s.txRecords k = some t → t.seq = k) :
    ∀ l : List Nat, (∀ j ∈ l, (get_tx_by_seq_number s j).isSome) →
      ((l.filterMap (fun j => get_tx_by_seq_number s j)).map
        Transaction.seq) = l := by
  intro l
  induction l with
  | nil => intro _; rfl
  | cons j rest ih =>
    intro hall
    cases h : get_tx_by_seq_number s j with
    | none =>
      have := hall j (by simp)
      rw [h] at this
      cases this
    | some t =>
      rw [List.filterMap_cons_some h, List.map_cons]
      rw [ih (fun j hj => hall j (by simp [hj]))]
      have := hwf j t (get_tx_by_seq_number_eq_some h).1
      rw [this]

/-- C3: for `min_seq ≤ next_tx_seq` (and records carrying their own key as
`seq`), after `remove_tx_after min_seq`: lookups at and above `min_seq` are
absent, lookups below `min_seq` are unchanged, the counter equals `min_seq`,
and the removed transactions are returned in strictly ascending seq order. -/
theorem remove_tx_after_frame (s : TransactionStore) (min_seq : Nat)
    (hmin : min_seq ≤ s.next_tx_seq)
    (hwf : ∀ k t, s.txRecords k = some t → t.seq = k) :
    (∀ seq, min_seq ≤ seq →
      get_tx_by_seq_number (remove_tx_after s min_seq).1 seq = none) ∧
    (∀ seq, seq < min_seq →
      get_tx_by_seq_number (remove_tx_after s min_seq).1 seq =
        get_tx_by_seq_number s seq) ∧
    (remove_tx_after s min_seq).1.next_tx_seq = min_seq ∧
    List.Pairwise (· < ·)
      ((remove_tx_after s min_seq).2.map Transaction.seq) := by
  have hloop := remove_tx_after_loop_removed_deletes s
    (List.range' min_seq (s.next_tx_seq - min_seq)) initAcc
  have hsub : ∀ j, j ∈ (remove_tx_after_loop s
      (List.range' min_seq (s.next_tx_seq - min_seq)) initAcc).txDeletes →
      min_seq ≤ j := by
    intro j hmem
    rw [hloop.2, show initAcc.txDeletes = [] from rfl, List.nil_append] at hmem
    have := List.mem_range'_1.mp
      ((List.takeWhile_sublist _).subset hmem)
    omega
  refine ⟨fun seq hseq => ?_, fun seq hseq => ?_, rfl, ?_⟩
  · unfold get_tx_by_seq_number
    rw [if_pos]
    exact hseq
  · unfold get_tx_by_seq_number
    rw [if_neg (show ¬(remove_tx_after s min_seq).1.next_tx_seq ≤ seq from
      by show ¬min_seq ≤ seq; omega)]
    rw [if_neg (by omega)]
    show (if seq ∈ (remove_tx_after_loop s
        (List.range' min_seq (s.next_tx_seq - min_seq)) initAcc).txDeletes
      then none else s.txRecords seq) = s.txRecords seq
    rw [if_neg (fun hmem => by have := hsub seq hmem; omega)]
  · show List.Pairwise (· < ·) ((remove_tx_after_loop s
      (List.range' min_seq (s.next_tx_seq - min_seq)) initAcc).removed.map
        Transaction.seq)
    rw [hloop.1, show initAcc.removed = [] from rfl, List.nil_append]
    rw [map_seq_filterMap_get hwf _
      (fun j hj => by simpa using List.mem_takeWhile_imp hj)]
    exact List.Pairwise.sublist (List.takeWhile_sublist _)
      (List.pairwise_lt_range' _ _)

/-- Witness for C3: rolling the two-record store back to `min_seq = 1`
removes exactly the record at seq 1 (returned in ascending order), keeps the
record at seq 0 readable, and resets the counter to 1. -/
theorem remove_tx_after_frame_witness :
    get_tx_by_seq_number (remove_tx_after w3s 1).1 1 = none ∧
    get_tx_by_seq_number (remove_tx_after w3s 1).1 0 =
      get_tx_by_seq_number w3s 0 ∧
    (remove_tx_after w3s 1).1.next_tx_seq = 1 ∧
    List.Pairwise (· < ·)
      ((remove_tx_after w3s 1).2.map Transaction.seq) := by
  have hwf : ∀ k t, w3s.txRecords k = some t → t.seq = k := by
    intro k t h
    by_cases h0 : k = 0
    · subst h0
      have h' : some w3t0 = some t := h
      cases h'
      rfl
    · by_cases h1 : k = 1
      · subst h1
        have h' : some w3t1 = some t := h
        cases h'
        rfl
      · have h' : (if k = 0 then some w3t0 else if k = 1 then some w3t1
            else none) = some t := h
        rw [if_neg h0, if_neg h1] at h'
        cases h'
  have h := remove_tx_after_frame w3s 1 (by decide) hwf
  exact ⟨h.1 1 le_rfl, h.2.1 0 (by decide), h.2.2.1, h.2.2.2⟩

/-! ## Association-list and loop lemmas shared by the reverse-index and
round-trip claims -/

theorem assocGet_assocSet_self (m : List (DataRoot × List Nat)) (r : DataRoot)
    (v : List Nat) : assocGet (assocSet m r v) r = some v := by
  induction m with
  | nil => simp [assocSet, assocGet]
  | cons kv rest ih =>
    obtain ⟨k, w⟩ := kv
    by_cases hk : k = r
    · subst hk
      simp [assocSet, assocGet]
    · simp only [assocSet, if_neg hk, assocGet]
      exact ih

theorem assocGet_assocSet_ne (m : List (DataRoot × List Nat))
    (r r' : DataRoot) (v : List Nat) (h : r' ≠ r) :
    assocGet (assocSet m r v) r' = assocGet m r' := by
  induction m with
  | nil =>
    simp only [assocSet, assocGet]
    rw [if_neg (fun hh => h hh.symm)]
  | cons kv rest ih =>
    obtain ⟨k, w⟩ := kv
    by_cases hk : k = r
    · subst hk
      simp only [assocSet, if_pos rfl, assocGet]
      rw [if_neg (fun hh => h hh.symm), if_neg (fun hh => h hh.symm)]
    · simp only [assocSet, if_neg hk, assocGet]
      by_cases hk' : k = r'
      · rw [if_pos hk', if_pos hk']
      · rw [if_neg hk', if_neg hk']
        exact ih

theorem remove_tx_after_loop_cons_some {s : TransactionStore}
    {seq : Nat} {rest : List Nat} {acc : RollbackAcc} {t : Transaction}
    (h : get_tx_by_seq_number s seq = some t) :
    remove_tx_after_loop s (seq :: rest) acc =
      remove_tx_after_loop s rest (rollback_step s acc seq t) := by
  rw [remove_tx_after_loop, h]

theorem mem_lookup_imp {s : TransactionStore} {r : DataRoot} {e : Nat}
    (hcons : ∀ r lst, s.dataRootIndex r = some lst → ∀ e ∈ lst,
      e < s.next_tx_seq ∧ ∃ t, s.txRecords e = some t ∧
        t.data_merkle_root = r)
    (he : e ∈ get_tx_seq_list_by_data_root s r) :
    e < s.next_tx_seq ∧ ∃ t, s.txRecords e = some t ∧
      t.data_merkle_root = r := by
  unfold get_tx_seq_list_by_data_root at he
  cases hidx : s.dataRootIndex r with
  | none =>
    rw [hidx] at he
    cases he
  | some lst =>
    rw [hidx] at he
    exact hcons r lst hidx e he

/-- The invariant of the rollback scan loop: at any point, the in-memory root
map holds exactly the roots of the records scanned so far, each bound to the
stored reverse-index list filtered to entries below `min_seq`, and the list
of storage lookups has no duplicates and matches the map's key set. -/
theorem rollback_loop_invariant (s : TransactionStore) (min_seq : Nat)
    (hcons : ∀ r lst, s.dataRootIndex r = some lst → ∀ e ∈ lst,
      e < s.next_tx_seq ∧ ∃ t, s.txRecords e = some t ∧
        t.data_merkle_root = r) :
    ∀ (m lo : Nat) (acc : RollbackAcc),
      min_seq ≤ lo →
      lo + m ≤ s.next_tx_seq →
      (∀ j, lo ≤ j → j < lo + m → (s.txRecords j).isSome) →
      (∀ j, min_seq ≤ j → j < lo → (s.txRecords j).isSome) →
      (∀ r, (assocGet acc.map r).isSome ↔
        ∃ k t, min_seq ≤ k ∧ k < lo ∧ s.txRecords k = some t ∧
          t.data_merkle_root = r) →
      (∀ r lst, assocGet acc.map r = some lst →
        lst = (get_tx_seq_list_by_data_root s r).filter
          (fun e => decide (e < min_seq))) →
      acc.lookedUp.Nodup →
      (∀ r, r ∈ acc.lookedUp ↔ (assocGet acc.map r).isSome) →
      (∀ r, (assocGet (remove_tx_after_loop s (List.range' lo m) acc).map
          r).isSome ↔
        ∃ k t, min_seq ≤ k ∧ k < lo + m ∧ s.txRecords k = some t ∧
          t.data_merkle_root = r) ∧
      (∀ r lst,
        assocGet (remove_tx_after_loop s (List.range' lo m) acc).map r =
          some lst →
        lst = (get_tx_seq_list_by_data_root s r).filter
          (fun e => decide (e < min_seq))) ∧
      (remove_tx_after_loop s (List.range' lo m) acc).lookedUp.Nodup ∧
      (∀ r, r ∈ (remove_tx_after_loop s (List.range' lo m) acc).lookedUp ↔
        (assocGet (remove_tx_after_loop s
          (List.range' lo m) acc).map r).isSome) := by
  intro m
  induction m with
  | zero =>
    intro lo acc h1 h2 h3 h4 hA hB hC hD
    refine ⟨fun r => Iff.trans (hA r) ?_, hB, hC, hD⟩
    constructor
    · rintro ⟨k, t, a, b, c, d⟩
      exact ⟨k, t, a, by omega, c, d⟩
    · rintro ⟨k, t, a, b, c, d⟩
      exact ⟨k, t, a, by omega, c, d⟩
  | succ m ih =>
    intro lo acc h1 h2 h3 h4 hA hB hC hD
    have hsome : (s.txRecords lo).isSome := h3 lo le_rfl (by omega)
    obtain ⟨t, ht⟩ := Option.isSome_iff_exists.mp hsome
    have hget : get_tx_by_seq_number s lo = some t := by
      unfold get_tx_by_seq_number
      rw [if_neg (by omega)]
      exact ht
    rw [List.range'_succ, remove_tx_after_loop_cons_some hget]
    -- the filtered value the step writes (both entry cases)
    have hvalue : ∀ cur, assocGet acc.map t.data_merkle_root = some cur →
        cur.filter (fun e => decide (e < lo)) =
          (get_tx_seq_list_by_data_root s t.data_merkle_root).filter
            (fun e => decide (e < min_seq)) := by
      intro cur hocc
      have hcur := hB _ _ hocc
      subst hcur
      rw [List.filter_eq_self.mpr]
      intro e he
      have := (List.mem_filter.mp he).2
      simp only [decide_eq_true_eq] at this ⊢
      omega
    have hvalue' : assocGet acc.map t.data_merkle_root = none →
        (get_tx_seq_list_by_data_root s t.data_merkle_root).filter
            (fun e => decide (e < lo)) =
          (get_tx_seq_list_by_data_root s t.data_merkle_root).filter
            (fun e => decide (e < min_seq)) := by
      intro hvac
      refine List.filter_congr (fun e he => ?_)
      obtain ⟨hlt, t', ht', hroot⟩ := mem_lookup_imp hcons he
      by_cases hemin : e < min_seq
      · rw [decide_eq_true (by omega), decide_eq_true hemin]
      · have helo : ¬e < lo := by
          intro helo
          have : (assocGet acc.map t.data_merkle_root).isSome := by
            exact (hA t.data_merkle_root).mpr
              ⟨e, t', by omega, helo, ht', hroot⟩
          rw [hvac] at this
          cases this
        rw [decide_eq_false helo, decide_eq_false hemin]
    -- characterize the step accumulator
    have hstep : ((rollback_step s acc lo t).map =
        assocSet acc.map t.data_merkle_root
          ((get_tx_seq_list_by_data_root s t.data_merkle_root).filter
            (fun e => decide (e < min_seq))) ∧
        (((rollback_step s acc lo t).lookedUp = acc.lookedUp ∧
            (assocGet acc.map t.data_merkle_root).isSome) ∨
          (assocGet acc.map t.data_merkle_root = none ∧
            (rollback_step s acc lo t).lookedUp =
              acc.lookedUp ++ [t.data_merkle_root]))) := by
      unfold rollback_step
      cases hocc : assocGet acc.map t.data_merkle_root with
      | some cur =>
        refine ⟨?_, Or.inl ⟨rfl, rfl⟩⟩
        dsimp only
        rw [hvalue cur hocc]
      | none =>
        refine ⟨?_, Or.inr ⟨rfl, rfl⟩⟩
        dsimp only
        rw [hvalue' hocc]
    -- new invariants for the step accumulator, then the inductive hypothesis
    have hA1 : ∀ r, (assocGet (rollback_step s acc lo t).map r).isSome ↔
        ∃ k t', min_seq ≤ k ∧ k < lo + 1 ∧ s.txRecords k = some t' ∧
          t'.data_merkle_root = r := by
      intro r
      rw [hstep.1]
      by_cases hr : r = t.data_merkle_root
      · subst hr
        rw [assocGet_assocSet_self]
        exact iff_of_true rfl ⟨lo, t, by omega, by omega, ht, rfl⟩
      · rw [assocGet_assocSet_ne _ _ _ _ hr]
        rw [hA r]
        constructor
        · rintro ⟨k, t', a, b, c, d⟩
          exact ⟨k, t', a, by omega, c, d⟩
        · rintro ⟨k, t', a, b, c, d⟩
          by_cases hk : k = lo
          · subst hk
            rw [ht] at c
            cases c
            exact absurd d.symm hr
          · exact ⟨k, t', a, by omega, c, d⟩
    have hB1 : ∀ r lst, assocGet (rollback_step s acc lo t).map r =
        some lst →
        lst = (get_tx_seq_list_by_data_root s r).filter
          (fun e => decide (e < min_seq)) := by
      intro r lst hr
      rw [hstep.1] at hr
      by_cases hreq : r = t.data_merkle_root
      · subst hreq
        rw [assocGet_assocSet_self] at hr
        exact (Option.some.inj hr).symm
      · rw [assocGet_assocSet_ne _ _ _ _ hreq] at hr
        exact hB r lst hr
    have hC1 : (rollback_step s acc lo t).lookedUp.Nodup := by
      rcases hstep.2 with ⟨heq, hiss⟩ | ⟨hvac, heq⟩
      · rw [heq]; exact hC
      · rw [heq, List.nodup_append]
        refine ⟨hC, List.nodup_singleton _, ?_⟩
        intro x hx hx'
        have : x = t.data_merkle_root := by simpa using hx'
        subst this
        have := (hD _).mp hx
        rw [hvac] at this
        cases this
    have hD1 : ∀ r, r ∈ (rollback_step s acc lo t).lookedUp ↔
        (assocGet (rollback_step s acc lo t).map r).isSome := by
      intro r
      rw [hstep.1]
      rcases hstep.2 with ⟨heq, hiss⟩ | ⟨hvac, heq⟩
      · rw [heq]
        by_cases hreq : r = t.data_merkle_root
        · subst hreq
          rw [assocGet_assocSet_self]
          refine iff_of_true ?_ rfl
          rw [hD]
          exact hiss
        · rw [assocGet_assocSet_ne _ _ _ _ hreq]
          exact (hD r)
      · rw [heq, List.mem_append]
        by_cases hreq : r = t.data_merkle_root
        · subst hreq
          rw [assocGet_assocSet_self]
          exact iff_of_true (Or.inr (by simp)) rfl
        · rw [assocGet_assocSet_ne _ _ _ _ hreq]
          simp only [List.mem_singleton]
          rw [hD r]
          exact ⟨fun h => h.elim id (fun hh => absurd hh hreq),
            fun h => Or.inl h⟩
    have hfinal := ih (lo + 1) (rollback_step s acc lo t)
      (by omega) (by omega)
      (fun j hj1 hj2 => h3 j (by omega) (by omega))
      (fun j hj1 hj2 => by
        by_cases hj : j = lo
        · subst hj; exact hsome
        · exact h4 j hj1 (by omega))
      hA1 hB1 hC1 hD1
    refine ⟨fun r => Iff.trans (hfinal.1 r) ?_, hfinal.2.1, hfinal.2.2.1,
      hfinal.2.2.2⟩
    constructor
    · rintro ⟨k, t', a, b, c, d⟩
      exact ⟨k, t', a, by omega, c, d⟩
    · rintro ⟨k, t', a, b, c, d⟩
      exact ⟨k, t', a, by omega, c, d⟩

theorem rollbackAcc_invariant (s : TransactionStore) (min_seq : Nat)
    (hmin : min_seq ≤ s.next_tx_seq)
    (hpresent : ∀ j, min_seq ≤ j → j < s.next_tx_seq → (s.txRecords j).isSome)
    (hcons : ∀ r lst, s.dataRootIndex r = some lst → ∀ e ∈ lst,
      e < s.next_tx_seq ∧ ∃ t, s.txRecords e = some t ∧
        t.data_merkle_root = r) :
    (∀ r, (assocGet (rollbackAcc s min_seq).map r).isSome ↔
      ∃ k t, min_seq ≤ k ∧ k < s.next_tx_seq ∧ s.txRecords k = some t ∧
        t.data_merkle_root = r) ∧
    (∀ r lst, assocGet (rollbackAcc s min_seq).map r = some lst →
      lst = (get_tx_seq_list_by_data_root s r).filter
        (fun e => decide (e < min_seq))) ∧
    (rollbackAcc s min_seq).lookedUp.Nodup ∧
    (∀ r, r ∈ (rollbackAcc s min_seq).lookedUp ↔
      (assocGet (rollbackAcc s min_seq).map r).isSome) := by
  have hinv := rollback_loop_invariant s min_seq hcons
    (s.next_tx_seq - min_seq) min_seq initAcc le_rfl (by omega)
    (fun j hj1 hj2 => hpresent j hj1 (by omega))
    (fun j hj1 hj2 => absurd hj2 (by omega))
    (fun r => iff_of_false (by simp [initAcc, assocGet])
      (by rintro ⟨k, t, a, b, _⟩; omega))
    (fun r lst h => by cases h)
    List.nodup_nil
    (fun r => by simp [initAcc, assocGet])
  refine ⟨fun r => Iff.trans (hinv.1 r) ?_, hinv.2.1, hinv.2.2.1,
    hinv.2.2.2⟩
  constructor
  · rintro ⟨k, t, a, b, c, d⟩
    exact ⟨k, t, a, by omega, c, d⟩
  · rintro ⟨k, t, a, b, c, d⟩
    exact ⟨k, t, a, by omega, c, d⟩

theorem rollbackAcc_removed_full (s : TransactionStore) (min_seq : Nat)
    (hpresent : ∀ j, min_seq ≤ j → j < s.next_tx_seq →
      (s.txRecords j).isSome) :
    (rollbackAcc s min_seq).removed =
      (List.range' min_seq (s.next_tx_seq - min_seq)).filterMap
        (fun j => get_tx_by_seq_number s j) := by
  have h := remove_tx_after_loop_removed_deletes s
    (List.range' min_seq (s.next_tx_seq - min_seq)) initAcc
  show (remove_tx_after_loop s
    (List.range' min_seq (s.next_tx_seq - min_seq)) initAcc).removed = _
  rw [h.1, takeWhile_eq_self_of_all]
  · rfl
  · intro j hj
    have hb := List.mem_range'_1.mp hj
    unfold get_tx_by_seq_number
    rw [if_neg (by omega)]
    exact hpresent j (by omega) (by omega)

/-! ## C6: the reverse index across a rollback -/

/-- C6: during `remove_tx_after min_seq` on a consistent store, each distinct
content root touched by the rollback range is fetched from storage exactly
once (the `lookedUp` trace has no duplicates and contains exactly the roots
of the removed transactions); the in-memory list of each touched root is the
stored list filtered to entries `< min_seq`; after the whole range, a touched
root's entry is deleted when that filtered list is empty and rewritten with
it otherwise; and any subsequent `get_tx_seq_list_by_data_root` on the
resulting store returns only sequence numbers below `min_seq`. -/
theorem remove_tx_after_reverse_index (s : TransactionStore) (min_seq : Nat)
    (hmin : min_seq ≤ s.next_tx_seq)
    (hpresent : ∀ j, min_seq ≤ j → j < s.next_tx_seq → (s.txRecords j).isSome)
    (hcons : ∀ r lst, s.dataRootIndex r = some lst → ∀ e ∈ lst,
      e < s.next_tx_seq ∧ ∃ t, s.txRecords e = some t ∧
        t.data_merkle_root = r) :
    (rollbackAcc s min_seq).lookedUp.Nodup ∧
    (∀ r, r ∈ (rollbackAcc s min_seq).lookedUp ↔
      ∃ t ∈ (remove_tx_after s min_seq).2, t.data_merkle_root = r) ∧
    (∀ r lst, assocGet (rollbackAcc s min_seq).map r = some lst →
      lst = (get_tx_seq_list_by_data_root s r).filter
          (fun e => decide (e < min_seq)) ∧
      (remove_tx_after s min_seq).1.dataRootIndex r =
        if lst = [] then none else some lst) ∧
    (∀ r e, e ∈ get_tx_seq_list_by_data_root (remove_tx_after s min_seq).1 r →
      e < min_seq) := by
  have hinv := rollbackAcc_invariant s min_seq hmin hpresent hcons
  have hrem := rollbackAcc_removed_full s min_seq hpresent
  have hmem : ∀ r, (∃ t ∈ (remove_tx_after s min_seq).2,
      t.data_merkle_root = r) ↔
      ∃ k t, min_seq ≤ k ∧ k < s.next_tx_seq ∧ s.txRecords k = some t ∧
        t.data_merkle_root = r := by
    intro r
    show (∃ t ∈ (rollbackAcc s min_seq).removed, t.data_merkle_root = r) ↔ _
    rw [hrem]
    constructor
    · rintro ⟨t, hmem, hroot⟩
      obtain ⟨j, hj, hget⟩ := List.mem_filterMap.mp hmem
      have hb := List.mem_range'_1.mp hj
      obtain ⟨hrec, _⟩ := get_tx_by_seq_number_eq_some hget
      exact ⟨j, t, by omega, by omega, hrec, hroot⟩
    · rintro ⟨k, t, a, b, c, d⟩
      refine ⟨t, List.mem_filterMap.mpr ⟨k, List.mem_range'_1.mpr
        ⟨a, by omega⟩, ?_⟩, d⟩
      unfold get_tx_by_seq_number
      rw [if_neg (by omega)]
      exact c
  refine ⟨hinv.2.2.1, fun r => Iff.trans (hinv.2.2.2 r)
      (Iff.trans (hinv.1 r) (hmem r).symm),
    fun r lst hlst => ⟨hinv.2.1 r lst hlst, ?_⟩, fun r e he => ?_⟩
  · show (match assocGet (rollbackAcc s min_seq).map r with
      | some l => if l = [] then none else some l
      | none => s.dataRootIndex r) = if lst = [] then none else some lst
    rw [hlst]
  · revert he
    show e ∈ ((match assocGet (rollbackAcc s min_seq).map r with
      | some l => if l = [] then none else some l
      | none => s.dataRootIndex r).getD []) → e < min_seq
    intro he
    cases hm : assocGet (rollbackAcc s min_seq).map r with
    | some lst =>
      rw [hm] at he
      dsimp only at he
      by_cases hnil : lst = []
      · rw [if_pos hnil] at he
        cases he
      · rw [if_neg hnil] at he
        have he' : e ∈ lst := he
        have := hinv.2.1 r lst hm
        subst this
        have := (List.mem_filter.mp he').2
        simpa using this
    | none =>
      rw [hm] at he
      dsimp only at he
      have he' : e ∈ get_tx_seq_list_by_data_root s r := he
      obtain ⟨hlt, t, hrec, hroot⟩ := mem_lookup_imp hcons he'
      by_cases hemin : e < min_seq
      · exact hemin
      · exfalso
        have : (assocGet (rollbackAcc s min_seq).map r).isSome :=
          (hinv.1 r).mpr ⟨e, t, by omega, hlt, hrec, hroot⟩
        rw [hm] at this
        cases this

/-- Witness for C6 on the two-record store sharing root 61, rolled back to
`min_seq = 1`: root 61 is looked up once, its entry is rewritten to `[0]`,
and the surviving index only holds seqs below 1. -/
theorem remove_tx_after_reverse_index_witness :
    (rollbackAcc w6s 1).lookedUp.Nodup ∧
    (61 ∈ (rollbackAcc w6s 1).lookedUp ↔
      ∃ t ∈ (remove_tx_after w6s 1).2, t.data_merkle_root = 61) ∧
    ((remove_tx_after w6s 1).1.dataRootIndex 61 =
      if ([0] : List Nat) = [] then none else some [0]) ∧
    (0 ∈ get_tx_seq_list_by_data_root (remove_tx_after w6s 1).1 61 →
      (0 : Nat) < 1) := by
  have hpresent : ∀ j, 1 ≤ j → j < w6s.next_tx_seq →
      (w6s.txRecords j).isSome := by
    intro j h1 h2
    have : j = 1 := by
      have : w6s.next_tx_seq = 2 := rfl
      omega
    subst this
    decide
  have hcons : ∀ r lst, w6s.dataRootIndex r = some lst → ∀ e ∈ lst,
      e < w6s.next_tx_seq ∧ ∃ t, w6s.txRecords e = some t ∧
        t.data_merkle_root = r := by
    intro r lst h e he
    have h' : (if r = 61 then some [0, 1] else none) = some lst := h
    by_cases hr : r = 61
    · subst hr
      rw [if_pos rfl] at h'
      cases h'
      have : e = 0 ∨ e = 1 := by simpa using he
      rcases this with rfl | rfl
      · exact ⟨by decide, w6t0, rfl, rfl⟩
      · exact ⟨by decide, w6t1, rfl, rfl⟩
    · rw [if_neg hr] at h'
      cases h'
  have h := remove_tx_after_reverse_index w6s 1 (by decide) hpresent hcons
  refine ⟨h.1, h.2.1 61, ?_, h.2.2.2 61 0⟩
  exact (h.2.2.1 61 [0] (by decide)).2

/-! ## Round-trip machinery: canonical states -/

theorem padded_data_eq (data : List Byte) :
    (if data.length % ENTRY_SIZE = 0 then data
      else data ++ List.replicate (ENTRY_SIZE - data.length % ENTRY_SIZE) 0) =
    data ++ List.replicate
      ((ENTRY_SIZE - data.length % ENTRY_SIZE) % ENTRY_SIZE) 0 := by
  have hE : (ENTRY_SIZE : Nat) = 256 := rfl
  by_cases hextra : data.length % ENTRY_SIZE = 0
  · rw [if_pos hextra, hextra]
    simp
  · rw [if_neg hextra]
    have h1 : data.length % ENTRY_SIZE < ENTRY_SIZE := Nat.mod_lt _ (by omega)
    have h2 : ENTRY_SIZE - data.length % ENTRY_SIZE < ENTRY_SIZE := by omega
    rw [Nat.mod_eq_of_lt h2]

theorem list_last_lt_of_forall {l : List Nat} {n : Nat}
    (h : ∀ x ∈ l, x < n) : list_last_lt l n = true := by
  unfold list_last_lt
  cases hl : l.getLast? with
  | none => rfl
  | some last =>
    have := h last (List.mem_of_mem_getLast? (by simpa using hl))
    simpa using this

theorem lookup_stateOf (txs : List Transaction) (r : DataRoot) :
    get_tx_seq_list_by_data_root (stateOf txs) r = seqListOf txs r := by
  unfold get_tx_seq_list_by_data_root stateOf
  dsimp only
  by_cases h : seqListOf txs r = []
  · rw [if_pos h, h]
    rfl
  · rw [if_neg h]
    rfl

theorem mem_seqListOf {txs : List Transaction} {r : DataRoot} {e : Nat}
    (h : e ∈ seqListOf txs r) :
    e < txs.length ∧ ∃ t, txs[e]? = some t ∧ t.data_merkle_root = r := by
  unfold seqListOf at h
  obtain ⟨hmem, hpred⟩ := List.mem_filter.mp h
  refine ⟨List.mem_range.mp hmem, ?_⟩
  have := of_decide_eq_true hpred
  obtain ⟨t, ht, hroot⟩ := Option.map_eq_some'.mp this
  exact ⟨t, ht, hroot⟩

theorem seqListOf_mem_iff {txs : List Transaction} {r : DataRoot} {e : Nat} :
    e ∈ seqListOf txs r ↔
      ∃ t, txs[e]? = some t ∧ t.data_merkle_root = r := by
  constructor
  · exact fun h => (mem_seqListOf h).2
  · rintro ⟨t, ht, hroot⟩
    unfold seqListOf
    refine List.mem_filter.mpr ⟨List.mem_range.mpr ?_, ?_⟩
    · by_contra hlen
      rw [List.getElem?_eq_none_iff.mpr (by omega)] at ht
      cases ht
    · rw [ht]
      simp [hroot]

theorem stateOf_nil : stateOf [] = empty_store := by
  apply TransactionStore.ext <;> rfl

theorem seqListOf_take_succ (txs : List Transaction) (r : DataRoot) (j : Nat)
    (hj : j < txs.length) :
    seqListOf (txs.take (j + 1)) r =
      seqListOf (txs.take j) r ++
        (if txs[j]?.map Transaction.data_merkle_root = some r then [j]
          else []) := by
  unfold seqListOf
  rw [List.length_take, List.length_take, min_eq_left (by omega),
    min_eq_left (by omega), List.range_succ, List.filter_append]
  congr 1
  · refine List.filter_congr (fun k hk => ?_)
    have hklt : k < j := List.mem_range.mp hk
    rw [List.getElem?_take, List.getElem?_take, if_pos (by omega),
      if_pos (by omega)]
  · have hval : (txs.take (j + 1))[j]? = txs[j]? := by
      rw [List.getElem?_take, if_pos (by omega)]
    by_cases hpred : txs[j]?.map Transaction.data_merkle_root = some r
    · rw [if_pos hpred]
      show List.filter _ [j] = [j]
      rw [List.filter_cons]
      rw [decide_eq_true (by rw [hval]; exact hpred)]
      rfl
    · rw [if_neg hpred]
      show List.filter _ [j] = []
      rw [List.filter_cons]
      rw [decide_eq_false (by rw [hval]; exact hpred)]
      rfl

theorem seqListOf_filter_lt (txs : List Transaction) (r : DataRoot)
    (min_seq : Nat) (hmin : min_seq ≤ txs.length) :
    (seqListOf txs r).filter (fun e => decide (e < min_seq)) =
      seqListOf (txs.take min_seq) r := by
  unfold seqListOf
  rw [List.filter_filter, List.length_take, min_eq_left hmin]
  have hsplit : List.range txs.length =
      List.range min_seq ++ List.range' min_seq (txs.length - min_seq) := by
    rw [List.range_eq_range', List.range_eq_range']
    have h := List.range'_append 0 min_seq (txs.length - min_seq) 1
    simp only [Nat.one_mul, Nat.zero_add] at h
    rw [Nat.sub_add_cancel hmin] at h
    exact h.symm
  rw [hsplit, List.filter_append]
  have h2 : List.filter
      (fun a => decide (a < min_seq) &&
        decide (txs[a]?.map Transaction.data_merkle_root = some r))
      (List.range' min_seq (txs.length - min_seq)) = [] :=
    List.filter_eq_nil_iff.mpr (fun k hk => by
      have := List.mem_range'_1.mp hk
      simp only [Bool.and_eq_true, decide_eq_true_eq, not_and]
      intro hlt
      omega)
  rw [h2, List.append_nil]
  refine List.filter_congr (fun k hk => ?_)
  have hklt : k < min_seq := List.mem_range.mp hk
  rw [decide_eq_true hklt, Bool.true_and]
  rw [List.getElem?_take, if_pos hklt]

theorem put_tx_stateOf (hash : List Byte → DataRoot)
    (txs : List Transaction) (j : Nat) (tx : Transaction)
    (hj : j < txs.length) (htx : txs[j]? = some tx)
    (hseq : tx.seq = j) (hnorm : Normalized hash tx) :
    put_tx hash (stateOf (txs.take j)) tx =
      some (stateOf (txs.take (j + 1)),
        seqListOf (txs.take j) tx.data_merkle_root) := by
  have hlt_elems : ∀ e ∈ seqListOf (txs.take j) tx.data_merkle_root,
      e < j := by
    intro e he
    have := (mem_seqListOf he).1
    rw [List.length_take] at this
    omega
  have hnorepl : ¬(get_tx_seq_list_by_data_root (stateOf (txs.take j))
      tx.data_merkle_root).getLast? = some tx.seq := by
    rw [lookup_stateOf, hseq]
    intro h
    have := hlt_elems j (List.mem_of_mem_getLast? (by simpa using h))
    omega
  have hsize_eq : (if tx.data = [] then tx.size else tx.data.length) =
      tx.size := by
    by_cases hd : tx.data = []
    · rw [if_pos hd]
    · rcases hnorm with hd' | ⟨hs, _⟩
      · exact absurd hd' hd
      · rw [if_neg hd]
        exact hs.symm
  have hroot_eq : (if tx.data = [] then tx.data_merkle_root
      else hash (if tx.data.length % ENTRY_SIZE = 0 then tx.data
        else tx.data ++ List.replicate
          (ENTRY_SIZE - tx.data.length % ENTRY_SIZE) 0)) =
      tx.data_merkle_root := by
    by_cases hd : tx.data = []
    · rw [if_pos hd]
    · rcases hnorm with hd' | ⟨_, hr⟩
      · exact absurd hd' hd
      · rw [if_neg hd, padded_data_eq]
        exact hr.symm
  unfold put_tx
  rw [if_neg hnorepl]
  dsimp only
  rw [hsize_eq, hroot_eq, lookup_stateOf]
  rw [if_pos (list_last_lt_of_forall
    (fun x hx => by rw [hseq]; exact hlt_elems x hx))]
  refine congrArg some (Prod.ext ?_ rfl)
  apply TransactionStore.ext
  · funext k
    show (if k = tx.seq then some tx
      else (stateOf (txs.take j)).txRecords k) = (txs.take (j + 1))[k]?
    rw [hseq]
    by_cases hk : k = j
    · rw [if_pos hk, hk]
      show some tx = (txs.take (j + 1))[j]?
      rw [List.getElem?_take, if_pos (by omega), htx]
    · rw [if_neg hk]
      show (txs.take j)[k]? = (txs.take (j + 1))[k]?
      rw [List.getElem?_take, List.getElem?_take]
      by_cases hkj : k < j
      · rw [if_pos hkj, if_pos (by omega)]
      · rw [if_neg hkj, if_neg (by omega)]
  · show tx.seq + 1 = (txs.take (j + 1)).length
    rw [hseq, List.length_take, min_eq_left (by omega)]
  · funext r
    have hsucc := seqListOf_take_succ txs r j hj
    show (if r = tx.data_merkle_root
        then some (seqListOf (txs.take j) tx.data_merkle_root ++ [tx.seq])
        else (stateOf (txs.take j)).dataRootIndex r) =
      (if seqListOf (txs.take (j + 1)) r = [] then none
        else some (seqListOf (txs.take (j + 1)) r))
    by_cases hr : r = tx.data_merkle_root
    · subst hr
      have hpred : txs[j]?.map Transaction.data_merkle_root =
          some tx.data_merkle_root := by
        rw [htx]
        rfl
      rw [if_pos rfl, hseq, hsucc, if_pos hpred, if_neg (by simp)]
    · have hpred : ¬txs[j]?.map Transaction.data_merkle_root = some r := by
        rw [htx]
        intro hh
        exact hr (Option.some.inj hh).symm
      rw [if_neg hr, hsucc, if_neg hpred, List.append_nil]
      rfl
  · rfl
  · show tx.seq + 1 = (txs.take (j + 1)).length
    rw [hseq, List.length_take, min_eq_left (by omega)]

theorem insert_all_stateOf (hash : List Byte → DataRoot)
    (txs : List Transaction)
    (hseq : ∀ (i : Nat) (t : Transaction), txs[i]? = some t → t.seq = i)
    (hnorm : ∀ t ∈ txs, Normalized hash t) :
    ∀ (m j : Nat), j + m = txs.length →
      insert_all hash (stateOf (txs.take j)) (txs.drop j) =
        some (stateOf txs) := by
  intro m
  induction m with
  | zero =>
    intro j hj
    have hj' : j = txs.length := by omega
    subst hj'
    rw [List.take_length, List.drop_length]
    rfl
  | succ m ih =>
    intro j hj
    have hjlt : j < txs.length := by omega
    have hget : txs[j]? = some txs[j] := List.getElem?_eq_getElem hjlt
    rw [List.drop_eq_getElem_cons hjlt, insert_all,
      put_tx_stateOf hash txs j txs[j] hjlt hget
        (hseq j txs[j] hget) (hnorm txs[j] (List.getElem_mem hjlt))]
    exact ih (j + 1) (by omega)

theorem filterMap_eq_map_of_forall {f : Nat → Option Transaction}
    {g : Nat → Transaction} :
    ∀ l : List Nat, (∀ a ∈ l, f a = some (g a)) →
      l.filterMap f = l.map g := by
  intro l
  induction l with
  | nil => intro _; rfl
  | cons a rest ih =>
    intro h
    rw [List.filterMap_cons_some (h a (by simp)), List.map_cons,
      ih (fun a ha => h a (by simp [ha]))]

theorem remove_tx_after_stateOf (txs : List Transaction) (min_seq : Nat)
    (hmin : min_seq ≤ txs.length) :
    remove_tx_after (stateOf txs) min_seq =
      (stateOf (txs.take min_seq), txs.drop min_seq) := by
  have hpresent : ∀ j, min_seq ≤ j → j < (stateOf txs).next_tx_seq →
      ((stateOf txs).txRecords j).isSome := by
    intro j h1 h2
    show (txs[j]?).isSome
    rw [List.getElem?_eq_getElem h2]
    rfl
  have hcons : ∀ r lst, (stateOf txs).dataRootIndex r = some lst →
      ∀ e ∈ lst, e < (stateOf txs).next_tx_seq ∧
        ∃ t, (stateOf txs).txRecords e = some t ∧
          t.data_merkle_root = r := by
    intro r lst h e he
    have h' : (if seqListOf txs r = [] then none
        else some (seqListOf txs r)) = some lst := h
    by_cases hnil : seqListOf txs r = []
    · rw [if_pos hnil] at h'
      cases h'
    · rw [if_neg hnil] at h'
      cases h'
      obtain ⟨hlen, t, ht, hroot⟩ := mem_seqListOf he
      exact ⟨hlen, t, ht, hroot⟩
  have hnext : (stateOf txs).next_tx_seq = txs.length := rfl
  have hinv := rollbackAcc_invariant (stateOf txs) min_seq hmin hpresent hcons
  have hdel : (rollbackAcc (stateOf txs) min_seq).txDeletes =
      List.range' min_seq (txs.length - min_seq) := by
    have h := remove_tx_after_loop_removed_deletes (stateOf txs)
      (List.range' min_seq ((stateOf txs).next_tx_seq - min_seq)) initAcc
    show (remove_tx_after_loop (stateOf txs)
      (List.range' min_seq ((stateOf txs).next_tx_seq - min_seq))
        initAcc).txDeletes = _
    rw [h.2, takeWhile_eq_self_of_all (fun j hj => by
      have hb := List.mem_range'_1.mp hj
      unfold get_tx_by_seq_number
      rw [if_neg (by omega)]
      exact hpresent j (by omega) (by omega))]
    rw [hnext]
    rfl
  have hrem : (rollbackAcc (stateOf txs) min_seq).removed =
      txs.drop min_seq := by
    rw [rollbackAcc_removed_full (stateOf txs) min_seq hpresent]
    rw [filterMap_eq_map_of_forall (List.range' min_seq
        ((stateOf txs).next_tx_seq - min_seq))
      (fun j hj => ?hsome)]
    case hsome =>
      have hb := List.mem_range'_1.mp hj
      unfold get_tx_by_seq_number
      rw [if_neg (by omega)]
      show txs[j]? = some ((txs[j]?).getD ⟨0, 0, 0, 0, [], []⟩)
      rw [List.getElem?_eq_getElem (show j < txs.length from by omega)]
      rfl
    refine List.ext_getElem ?_ ?_
    · rw [List.length_map, List.length_range', List.length_drop, hnext]
    · intro i h1 h2
      rw [List.getElem_map, List.getElem_range', List.getElem_drop]
      have hilen : min_seq + i < txs.length := by
        rw [List.length_map, List.length_range'] at h1
        omega
      show (txs[min_seq + 1 * i]?).getD ⟨0, 0, 0, 0, [], []⟩ =
        txs[min_seq + i]
      rw [Nat.one_mul, List.getElem?_eq_getElem hilen]
      rfl
  refine Prod.ext ?_ hrem
  apply TransactionStore.ext
  · funext k
    show (if k ∈ (rollbackAcc (stateOf txs) min_seq).txDeletes then none
      else txs[k]?) = (txs.take min_seq)[k]?
    rw [hdel]
    by_cases hk : k ∈ List.range' min_seq (txs.length - min_seq)
    · have hb := List.mem_range'_1.mp hk
      rw [if_pos hk, List.getElem?_take, if_neg (by omega)]
    · rw [if_neg hk, List.getElem?_take]
      by_cases hkmin : k < min_seq
      · rw [if_pos hkmin]
      · have hout : ¬k < txs.length := by
          intro hkn
          exact hk (List.mem_range'_1.mpr ⟨by omega, by omega⟩)
        rw [if_neg hkmin, List.getElem?_eq_none_iff.mpr
          (show txs.length ≤ k from by omega)]
  · show min_seq = (txs.take min_seq).length
    rw [List.length_take, min_eq_left hmin]
  · funext r
    show (match assocGet (rollbackAcc (stateOf txs) min_seq).map r with
      | some l => if l = [] then none else some l
      | none => (stateOf txs).dataRootIndex r) =
      (if seqListOf (txs.take min_seq) r = [] then none
        else some (seqListOf (txs.take min_seq) r))
    cases hm : assocGet (rollbackAcc (stateOf txs) min_seq).map r with
    | some lst =>
      have hlst := hinv.2.1 r lst hm
      rw [lookup_stateOf, seqListOf_filter_lt txs r min_seq hmin] at hlst
      subst hlst
      rfl
    | none =>
      have hnone : ∀ e ∈ seqListOf txs r, e < min_seq := by
        intro e he
        obtain ⟨hlen, t, ht, hroot⟩ := mem_seqListOf he
        by_contra hge
        have : (assocGet (rollbackAcc (stateOf txs) min_seq).map r).isSome :=
          (hinv.1 r).mpr ⟨e, t, by omega, hlen, ht, hroot⟩
        rw [hm] at this
        cases this
      have heq : seqListOf txs r = seqListOf (txs.take min_seq) r := by
        rw [← seqListOf_filter_lt txs r min_seq hmin]
        exact (List.filter_eq_self.mpr
          (fun e he => decide_eq_true (hnone e he))).symm
      show (if seqListOf txs r = [] then none
        else some (seqListOf txs r)) = _
      rw [heq]
  · funext k
    show (if k ∈ (rollbackAcc (stateOf txs) min_seq).txDeletes then none
      else (stateOf txs).txCompleted k) = none
    exact ite_self none
  · show min_seq = (txs.take min_seq).length
    rw [List.length_take, min_eq_left hmin]

/-! ## C7: rollback followed by re-insertion -/

/-- C7 counterexample: transactions with strictly increasing but
non-consecutive seqs 0 and 2. `remove_tx_after 1` hits the missing record at
seq 1, removes nothing, and resets the counter to 1; re-inserting the (empty)
removed list then leaves a store whose counter is 1 instead of 3 and whose
lookup at seq 2 is absent instead of the stored record — the round trip fails
for strictly increasing insertions. -/
theorem remove_put_roundtrip_counterexample :
    ([c7t0, c7t2].map Transaction.seq).Pairwise (· < ·) ∧
    insert_all wHash empty_store [c7t0, c7t2] = some c7s ∧
    (remove_tx_after c7s 1).2 = [] ∧
    insert_all wHash (remove_tx_after c7s 1).1 (remove_tx_after c7s 1).2 =
      some (remove_tx_after c7s 1).1 ∧
    (remove_tx_after c7s 1).1.next_tx_seq = 1 ∧
    c7s.next_tx_seq = 3 ∧
    get_tx_by_seq_number (remove_tx_after c7s 1).1 2 = none ∧
    get_tx_by_seq_number c7s 2 = some c7t2 := by
  refine ⟨by decide, rfl, by decide, ?_, by decide, by decide, by decide,
    by decide⟩
  have h : (remove_tx_after c7s 1).2 = [] := by decide
  rw [h]
  rfl

/-- C7 (amended): for every store built by inserting transactions with
consecutive sequence numbers 0, 1, …, n−1 (each either without inline content
or already normalized) starting from the empty store, and every
`min_seq ≤ n`, calling `remove_tx_after min_seq` and re-inserting the removed
transactions in the returned (ascending) order reproduces the identical
store: transaction ledger, data-root reverse index, and both sequence
counters. -/
theorem remove_put_roundtrip (hash : List Byte → DataRoot)
    (txs : List Transaction) (min_seq : Nat) (s : TransactionStore)
    (hseq : ∀ (i : Nat) (t : Transaction), txs[i]? = some t → t.seq = i)
    (hnorm : ∀ t ∈ txs, Normalized hash t)
    (hmin : min_seq ≤ txs.length)
    (hbuild : insert_all hash empty_store txs = some s) :
    insert_all hash (remove_tx_after s min_seq).1
      (remove_tx_after s min_seq).2 = some s := by
  have hstate : s = stateOf txs := by
    have h0 := insert_all_stateOf hash txs hseq hnorm txs.length 0 (by omega)
    rw [List.take_zero, stateOf_nil, List.drop_zero, hbuild] at h0
    exact Option.some.inj h0
  subst hstate
  rw [remove_tx_after_stateOf txs min_seq hmin]
  exact insert_all_stateOf hash txs hseq hnorm (txs.length - min_seq) min_seq
    (by omega)

/-- Witness for the amended C7: the two-transaction store with consecutive
seqs 0 and 1 rolled back to 1 and replayed reproduces itself. -/
theorem remove_put_roundtrip_witness :
    insert_all wHash (remove_tx_after w7s 1).1 (remove_tx_after w7s 1).2 =
      some w7s := by
  refine remove_put_roundtrip wHash [w7t0, w7t1] 1 w7s ?_ ?_ (by decide) rfl
  · intro i t h
    match i with
    | 0 =>
      have h' : some w7t0 = some t := h
      cases h'
      rfl
    | 1 =>
      have h' : some w7t1 = some t := h
      cases h'
      rfl
    | n + 2 =>
      have h' : (none : Option Transaction) = some t := h
      cases h'
  · intro t ht
    have h' : t = w7t0 ∨ t = w7t1 := by simpa using ht
    rcases h' with rfl | rfl <;> exact Or.inl rfl

/-! ## C1: the padding case of the backward scan -/

/-- C1 counterexample: the claim states that when the running offset never
lands exactly on the chunk start (the padding case), an invariant violation
(fatal assertion) is signaled unless the accumulator is still empty. On this
store the scan reaches the padding case of `c1tx0` with the non-empty
accumulator `[(1, c1tx1.merkle_nodes)]`, yet the scan (and the whole rebuild)
returns successfully — no assertion exists on that path in the code; the
`assert!(tx_list.is_empty())` sits on the different, exact-boundary
empty-suffix path. -/
theorem rebuild_scan_padding_counterexample :
    get_tx_by_seq_number c1s 0 = some c1tx0 ∧
    c1tx0.start_entry_index < 1 * PORA_CHUNK_SIZE ∧
    find_first_index (1 * PORA_CHUNK_SIZE) c1tx0.merkle_nodes
      c1tx0.start_entry_index 0 = none ∧
    rebuild_scan c1s (1 * PORA_CHUNK_SIZE) 1 [] =
      some [(1, c1tx1.merkle_nodes)] ∧
    [(1, c1tx1.merkle_nodes)] ≠ ([] : List (Nat × List (Nat × H256))) ∧
    (rebuild_last_chunk_merkle c1s 1 1).isSome = true := by
  refine ⟨rfl, by decide, by decide, by decide, by decide, by decide⟩

/-- C1 (amended): in the backward scan, for a scanned transaction whose
`start_entry_index` is strictly below the chunk start: if the running offset
never lands exactly on the chunk start (the padding case), none of that
transaction's subtrees are collected and scanning stops with no assertion;
the fatal `assert!(tx_list.is_empty())` is instead signaled on the
exact-boundary path where the offset first equals the chunk start after the
final subtree (empty suffix), in which case nothing is collected either and
the assertion requires the accumulator to be empty. -/
theorem rebuild_scan_padding_case (s : TransactionStore) (cs tx_seq : Nat)
    (acc : List (Nat × List (Nat × H256))) (tx : Transaction)
    (hget : get_tx_by_seq_number s tx_seq = some tx)
    (hlt : tx.start_entry_index < cs) :
    (find_first_index cs tx.merkle_nodes tx.start_entry_index 0 = none →
      rebuild_scan s cs tx_seq acc = some acc) ∧
    (find_first_index cs tx.merkle_nodes tx.start_entry_index 0 =
        some tx.merkle_nodes.length →
      (acc = [] → rebuild_scan s cs tx_seq acc = some acc) ∧
      (acc ≠ [] → rebuild_scan s cs tx_seq acc = none)) := by
  have hstep : rebuild_scan s cs tx_seq acc =
      match find_first_index cs tx.merkle_nodes tx.start_entry_index 0 with
      | some first_index =>
        if first_index ≠ tx.merkle_nodes.length then
          some (acc ++ [(tx_seq, tx.merkle_nodes.drop first_index)])
        else if acc = [] then some acc
        else none
      | none => some acc := by
    cases tx_seq with
    | zero =>
      rw [rebuild_scan, hget]
      dsimp only
      rw [if_neg (show ¬cs < tx.start_entry_index by omega),
        if_neg (show ¬tx.start_entry_index = cs by omega)]
    | succ n =>
      rw [rebuild_scan, hget]
      dsimp only
      rw [if_neg (show ¬cs < tx.start_entry_index by omega),
        if_neg (show ¬tx.start_entry_index = cs by omega)]
  constructor
  · intro hffi
    rw [hstep, hffi]
  · intro hffi
    rw [hstep, hffi]
    dsimp only
    constructor
    · intro hacc
      rw [if_neg (show ¬tx.merkle_nodes.length ≠ tx.merkle_nodes.length by
        omega), if_pos hacc]
    · intro hacc
      rw [if_neg (show ¬tx.merkle_nodes.length ≠ tx.merkle_nodes.length by
        omega), if_neg hacc]

/-- Witness for the amended C1: on `c1s` the padding case at seq 0 collects
nothing and succeeds; on `c1bs` the exact-boundary empty-suffix case panics
exactly when the accumulator is non-empty. -/
theorem rebuild_scan_padding_case_witness :
    rebuild_scan c1s (1 * PORA_CHUNK_SIZE) 0 [] = some [] ∧
    rebuild_scan c1bs (1 * PORA_CHUNK_SIZE) 0 [] = some [] ∧
    rebuild_scan c1bs (1 * PORA_CHUNK_SIZE) 0 [(1, [(1, 6)])] = none := by
  refine ⟨(rebuild_scan_padding_case c1s (1 * PORA_CHUNK_SIZE) 0 [] c1tx0
      rfl (by decide)).1 (by decide),
    ((rebuild_scan_padding_case c1bs (1 * PORA_CHUNK_SIZE) 0 [] c1btx
      rfl (by decide)).2 (by decide)).1 rfl,
    ((rebuild_scan_padding_case c1bs (1 * PORA_CHUNK_SIZE) 0 [(1, [(1, 6)])]
      c1btx rfl (by decide)).2 (by decide)).2 (by decide)⟩

/-! ## C8: the replay phase of the rebuild -/

theorem data_to_merkle_leaves_padding (n : Nat) :
    data_to_merkle_leaves (padding_raw n) = List.replicate n 0 := by
  unfold data_to_merkle_leaves padding_raw
  have hlen : (List.replicate (n * ENTRY_SIZE) (0 : Byte)).length / ENTRY_SIZE
      = n := by
    rw [List.length_replicate]
    exact Nat.mul_div_cancel _ (by norm_num [ENTRY_SIZE])
  rw [hlen]
  have hmap : ∀ i : Nat,
      entry_leaf_hash ((List.drop (i * ENTRY_SIZE)
        (List.replicate (n * ENTRY_SIZE) (0 : Byte))).take ENTRY_SIZE) = 0 := by
    intro i
    rw [List.drop_replicate, List.take_replicate]
    unfold entry_leaf_hash
    rw [if_pos]
    rw [List.all_eq_true]
    intro x hx
    have := (List.mem_replicate.mp hx).2
    simp [this]
  calc (List.range n).map (fun i =>
        entry_leaf_hash ((List.drop (i * ENTRY_SIZE)
          (List.replicate (n * ENTRY_SIZE) (0 : Byte))).take ENTRY_SIZE))
      = (List.range n).map (fun _ => (0 : H256)) := by
        exact List.map_congr_left (fun i _ => hmap i)
    _ = List.replicate n 0 := by
        rw [List.map_const', List.length_range]

/-- C8: the replay phase starts from a single zero leaf at depth 1 for chunk
index 0 and from an empty tree of depth `log2(PORA_CHUNK_SIZE) + 1`
otherwise; each collected `(seq, slice)` is replayed (in the reversed, i.e.
ascending-seq, order of the collected list) by first appending exactly
`min(first_span, PORA_CHUNK_SIZE) - leafCount % first_span` zero-valued
padding leaves when the leaf count is not a multiple of the first subtree's
span `first_span = 2^(depth-1)`, then appending the subtree digests and
committing as version `seq`. -/
theorem rebuild_replay_init_and_padding :
    (∀ s c t, rebuild_last_chunk_merkle s c t =
      (rebuild_scan s (c * PORA_CHUNK_SIZE) t []).bind
        (fun l => replay_fold l.reverse (rebuild_init (c * PORA_CHUNK_SIZE)))) ∧
    ((rebuild_init (0 * PORA_CHUNK_SIZE)).depth = 1 ∧
      (rebuild_init (0 * PORA_CHUNK_SIZE)).initialLeaves = [0] ∧
      (rebuild_init (0 * PORA_CHUNK_SIZE)).leafCount = 1) ∧
    (∀ c, c ≠ 0 →
      (rebuild_init (c * PORA_CHUNK_SIZE)).depth =
          log2_pow2 PORA_CHUNK_SIZE + 1 ∧
        (rebuild_init (c * PORA_CHUNK_SIZE)).initialLeaves = [] ∧
        (rebuild_init (c * PORA_CHUNK_SIZE)).leafCount = 0) ∧
    (∀ (m m' : MTree) (seq d h : Nat) (rest : List (Nat × H256)),
      m.leafCount % 2 ^ (d - 1) ≠ 0 →
      replay_step m (seq, (d, h) :: rest) = some m' →
      m'.ops = m.ops ++
        [.appendLeaves (List.replicate
            (min (2 ^ (d - 1)) PORA_CHUNK_SIZE - m.leafCount % 2 ^ (d - 1)) 0),
          .appendSubtrees ((d, h) :: rest), .commitVer seq]) ∧
    (∀ (m m' : MTree) (seq d h : Nat) (rest : List (Nat × H256)),
      m.leafCount % 2 ^ (d - 1) = 0 →
      replay_step m (seq, (d, h) :: rest) = some m' →
      m'.ops = m.ops ++ [.appendSubtrees ((d, h) :: rest), .commitVer seq]) := by
  refine ⟨fun s c t => ?_, ⟨rfl, rfl, rfl⟩, fun c hc => ?_, ?_, ?_⟩
  · unfold rebuild_last_chunk_merkle
    dsimp only
    cases rebuild_scan s (c * PORA_CHUNK_SIZE) t [] <;> rfl
  · have hp : c * PORA_CHUNK_SIZE ≠ 0 := by
      have h1024 : (PORA_CHUNK_SIZE : Nat) = 1024 := rfl
      rw [h1024]
      omega
    unfold rebuild_init
    rw [if_neg hp]
    exact ⟨rfl, rfl, rfl⟩
  · intro m m' seq d h rest hmod hstep
    unfold replay_step at hstep
    dsimp only [MTree.leaves] at hstep
    rw [if_pos hmod] at hstep
    have hx := Option.some.inj hstep
    subst hx
    simp [append_list, append_subtree_list, MTree.commitVersion,
      data_to_merkle_leaves_padding]
  · intro m m' seq d h rest hmod hstep
    unfold replay_step at hstep
    dsimp only [MTree.leaves] at hstep
    rw [if_neg (by omega)] at hstep
    have hx := Option.some.inj hstep
    subst hx
    simp [append_subtree_list, MTree.commitVersion]

/-- Witness for C8: the chunk-0 initial tree holds one zero leaf at depth 1;
replaying a depth-5 subtree slice onto it first appends
`min(16, 1024) - 1 % 16 = 15` zero padding leaves, then the subtrees and the
version-3 commit; a depth-1 slice (span 1) needs no padding. -/
theorem rebuild_replay_init_and_padding_witness :
    (rebuild_init (0 * PORA_CHUNK_SIZE)).leafCount = 1 ∧
    (rebuild_init (7 * PORA_CHUNK_SIZE)).depth = 11 ∧
    ((replay_step (rebuild_init (0 * PORA_CHUNK_SIZE)) (3, [(5, 77)])).getD
        (rebuild_init (0 * PORA_CHUNK_SIZE))).ops =
      (rebuild_init (0 * PORA_CHUNK_SIZE)).ops ++
        [.appendLeaves (List.replicate 15 0), .appendSubtrees [(5, 77)],
          .commitVer 3] ∧
    ((replay_step (rebuild_init (0 * PORA_CHUNK_SIZE)) (4, [(1, 88)])).getD
        (rebuild_init (0 * PORA_CHUNK_SIZE))).ops =
      (rebuild_init (0 * PORA_CHUNK_SIZE)).ops ++
        [.appendSubtrees [(1, 88)], .commitVer 4] := by
  have h := rebuild_replay_init_and_padding
  refine ⟨h.2.1.2.2, ?_, ?_, ?_⟩
  · rw [(h.2.2.1 7 (by decide)).1]
    decide
  · have hstep := h.2.2.2.1 (rebuild_init (0 * PORA_CHUNK_SIZE))
      ((replay_step (rebuild_init (0 * PORA_CHUNK_SIZE)) (3, [(5, 77)])).getD
        (rebuild_init (0 * PORA_CHUNK_SIZE)))
      3 5 77 [] (by decide) rfl
    rw [hstep]
    rfl
  · have hstep := h.2.2.2.2 (rebuild_init (0 * PORA_CHUNK_SIZE))
      ((replay_step (rebuild_init (0 * PORA_CHUNK_SIZE)) (4, [(1, 88)])).getD
        (rebuild_init (0 * PORA_CHUNK_SIZE)))
      4 1 88 [] (by decide) rfl
    rw [hstep]

end ZgsTxStore
